import Mathlib

set_option autoImplicit false

namespace HashPy

/-- Character strings of the Python program, modelled as lists of characters.
Byte strings fed to the hash are modelled the same way: all concrete inputs in
this development are ASCII, where UTF-8 encoding (`str.encode()`) is the
identity on code points. -/
abbrev S := List Char

/-- View a Lean string literal as the model's string type. -/
def str (s : String) : S := s.data

/-- Helper for Python `s.split(c)`: `acc` holds the current part reversed. -/
def splitAux (c : Char) : S → S → List S
  | [], acc => [acc.reverse]
  | x :: xs, acc =>
    if x = c then acc.reverse :: splitAux c xs [] else splitAux c xs (x :: acc)

/-- Python `s.split(c)` for a one-character separator: splits at every
occurrence of the separator and keeps empty parts (`"".split('/') == ['']`). -/
def split (c : Char) (s : S) : List S := splitAux c s []

/-- Python `c.join(parts)` for a one-character separator. -/
def joinChar (c : Char) : List S → S
  | [] => []
  | [x] => x
  | x :: y :: xs => x ++ c :: joinChar c (y :: xs)

/-- Python string comparison `a < b`: lexicographic by code point (`ord`). -/
def strLt : S → S → Bool
  | [], [] => false
  | [], _ :: _ => true
  | _ :: _, [] => false
  | a :: as, b :: bs =>
    if a.toNat < b.toNat then true else if b.toNat < a.toNat then false else strLt as bs

/-- Insert into an ascending list, placing the new element after every element
it does not compare strictly below (the stable position). -/
def insertSorted (x : S) : List S → List S
  | [] => [x]
  | y :: ys => if strLt x y then x :: y :: ys else y :: insertSorted x ys

/-- Python `list.sort()` on strings: a stable ascending comparison sort,
modelled by insertion sort (extensionally equal to any stable sort by `<`). -/
def sortStrings : List S → List S
  | [] => []
  | x :: xs => insertSorted x (sortStrings xs)

/-- One pass of Python `s.replace(pat, rep)` (all occurrences, leftmost,
non-overlapping). The fuel bounds recursion; `s.length` steps always suffice
for a nonempty pattern, and hash.py only calls this with nonempty patterns. -/
def replaceAllFuel (pat rep : S) : Nat → S → S
  | 0, s => s
  | _ + 1, [] => []
  | fuel + 1, x :: xs =>
    if pat.isPrefixOf (x :: xs) then rep ++ replaceAllFuel pat rep fuel ((x :: xs).drop pat.length)
    else x :: replaceAllFuel pat rep fuel xs

/-- Python `s.replace(pat, rep)` for a nonempty pattern. -/
def replaceAll (pat rep s : S) : S := replaceAllFuel pat rep s.length s

/-- Whether `pat` occurs as a contiguous substring of `s`. -/
def occursIn (pat : S) : S → Bool
  | [] => pat.isEmpty
  | x :: xs => pat.isPrefixOf (x :: xs) || occursIn pat xs

/-- Python `s.replace('/', '', 1)`: drop the first slash only. -/
def removeFirstSlash : S → S
  | [] => []
  | x :: xs => if x = '/' then xs else x :: removeFirstSlash xs

/-- Longest common prefix of two segment lists. `posixpath.relpath` computes
this through `genericpath.commonprefix` on the two lists, which returns their
element-wise longest common prefix. -/
def lcp : List S → List S → List S
  | x :: xs, y :: ys => if x = y then x :: lcp xs ys else []
  | _, _ => []

/-- Python `posixpath.isabs(p)`: `p` starts with a slash. -/
def isAbs : S → Bool
  | [] => false
  | c :: _ => c = '/'

/-- Python `posixpath.join(a, b)` for two components. -/
def pyJoin (a b : S) : S :=
  if isAbs b then b
  else if a = [] ∨ a.getLast? = some '/' then a ++ b
  else a ++ '/' :: b

/-- One step of the component loop in Python `posixpath.normpath`: skip empty
and `.` components, append ordinary components, and let `..` pop the previous
component unless there is nothing to pop (at the root it is dropped, at the
start of a relative path it is kept). -/
def normStep (slashes : Nat) (acc : List S) (comp : S) : List S :=
  if comp = [] ∨ comp = ['.'] then acc
  else if comp ≠ str ".." ∨ (slashes = 0 ∧ acc = []) ∨ acc.getLast? = some (str "..") then
    acc ++ [comp]
  else if acc ≠ [] then acc.dropLast
  else acc

/-- Python `posixpath.normpath`, including the POSIX double-slash rule. -/
def pyNormpath (p : S) : S :=
  if p = [] then ['.']
  else
    let slashes : Nat :=
      if isAbs p then (if p.take 2 = str "//" ∧ ¬ p.take 3 = str "///" then 2 else 1) else 0
    let newComps := (split '/' p).foldl (normStep slashes) []
    let q := List.replicate slashes '/' ++ joinChar '/' newComps
    if q = [] then ['.'] else q

/-- Python `os.path.abspath`, with the process working directory explicit. -/
def pyAbspath (cwd p : S) : S :=
  pyNormpath (if isAbs p then p else pyJoin cwd p)

/-- Python `posixpath.basename`: the suffix after the last slash. -/
def pyBasename (p : S) : S := (p.reverse.takeWhile (fun c => ¬ c = '/')).reverse

/-- Python `posixpath.dirname`: the prefix up to the last slash, trailing
slashes stripped unless the prefix consists only of slashes. -/
def pyDirname (p : S) : S :=
  let head := (p.reverse.dropWhile (fun c => ¬ c = '/')).reverse
  if head = [] ∨ head.all (fun c => c = '/') then head
  else (head.reverse.dropWhile (fun c => c = '/')).reverse

/-- Python `posixpath.join(*parts)` for a nonempty list of parts. -/
def pyJoinList : List S → S
  | [] => []
  | x :: xs => xs.foldl pyJoin x

/-- Python `posixpath.relpath(path, start)`, working directory explicit:
absolutize both, drop empty segments, climb past the common prefix of the
start's segments, then append the path's remaining segments. -/
def pyRelpath (cwd path start : S) : S :=
  let pl := (split '/' (pyAbspath cwd path)).filter (fun x => ¬ x = [])
  let sl := (split '/' (pyAbspath cwd start)).filter (fun x => ¬ x = [])
  let i := (lcp sl pl).length
  let relList := List.replicate (sl.length - i) (str "..") ++ pl.drop i
  if relList = [] then ['.'] else pyJoinList relList

/-- A model filesystem for the hashing components: regular files as an
association list from absolute normalized path to byte content, plus the
directory paths. -/
structure PyFS where
  files : List (S × S)
  dirs : List S
deriving DecidableEq

/-- Look up a file's content by absolute path. -/
def lookupFile (fs : PyFS) (p : S) : Option S :=
  (fs.files.find? (fun e => decide (e.1 = p))).map (fun e => e.2)

/-- Python `os.path.isfile(p)` for an absolute `p` against the model. -/
def isfile (fs : PyFS) (p : S) : Bool := (lookupFile fs p).isSome

/-- Python `os.path.isdir(p)` against the model, resolving `p` relative to
the working directory as the OS does. -/
def isdirAt (fs : PyFS) (cwd p : S) : Bool := fs.dirs.contains (pyAbspath cwd p)

/-- Reading a file's bytes (`open(file_path, 'rb')` plus the 1024-byte chunk
loop): the chunks concatenate to the full content, so the model returns the
whole byte string. A missing file makes the source program abort; the model
returns the empty string, and every theorem below reads only existing files. -/
def readFile (fs : PyFS) (cwd p : S) : S := (lookupFile fs (pyAbspath cwd p)).getD []

/-- The relative paths of the regular files under the absolute directory `t`,
in filesystem order. -/
def filesUnder (fs : PyFS) (t : S) : List S :=
  (fs.files.filter (fun e => (t ++ ['/']).isPrefixOf e.1)).map
    (fun e => e.1.drop (t.length + 1))

/-- `list_files(top_path)` from hash.py: `os.walk` visits the tree of
`top_path` (resolved against the working directory) and each file is joined
onto the given `top_path` string (`os.path.join(root, file_name)`); the
result list is then sorted (`results.sort()`). -/
def list_files (fs : PyFS) (cwd top : S) : List S :=
  sortStrings ((filesUnder fs (pyAbspath cwd top)).map (fun rel => top ++ '/' :: rel))

/-- `update_hash(hash_obj, file_root, file_path)` from hash.py. The SHA-256
object is modelled by the byte stream it has absorbed (`update` appends bytes;
two runs produce the same digest exactly when they absorb the same stream).
The function feeds `os.path.relpath(file_path, file_root)` and then the file
content. -/
def update_hash (fs : PyFS) (cwd sha file_root file_path : S) : S :=
  sha ++ pyRelpath cwd file_path file_root ++ readFile fs cwd file_path

/-- `generate_content_hash(source_paths)` from hash.py, as the absorbed byte
stream of the SHA-256 object it returns: for a directory, every enumerated
file is folded with the directory as root; otherwise the single file is
folded with its `os.path.dirname` as root. -/
def generate_content_hash (fs : PyFS) (cwd : S) (source_paths : List S) : S :=
  source_paths.foldl
    (fun sha source_path =>
      if isdirAt fs cwd source_path then
        (list_files fs cwd source_path).foldl
          (fun s source_file => update_hash fs cwd s source_path source_file) sha
      else update_hash fs cwd sha (pyDirname source_path) source_path)
    []

/-- The digest stream of hash.py lines 186-188: the content hash of the given
paths, then `runtime`, then `build_command`. -/
def hashStream (fs : PyFS) (cwd : S) (paths : List S) (runtime buildCommand : S) : S :=
  generate_content_hash fs cwd paths ++ runtime ++ buildCommand

/-- Probe loop of the CPython `set` hash table with 8 slots (the initial
table; no resize happens below five entries). Because the table mask (7) is
smaller than CPython's linear-probe window, each round inspects one slot and
then perturbs: `perturb >>= 5; i = (i*5 + 1 + perturb) & mask`. Returns the
slot holding `x` or the first unused slot on `x`'s probe sequence. -/
def probeFind (t : List (Option S)) (x : S) : Nat → Nat → Nat → Option Nat
  | 0, _, _ => none
  | fuel + 1, i, perturb =>
    match t[i]? with
    | some none => some i
    | some (some y) =>
      if y = x then some i
      else probeFind t x fuel ((i * 5 + 1 + Nat.shiftRight perturb 5) % 8) (Nat.shiftRight perturb 5)
    | none => none

/-- Insert a string into the 8-slot CPython set table. The string hash
function is a parameter: CPython randomizes string hashing per process
(PYTHONHASHSEED), so the hash values of the inputs are arbitrary. -/
def pySetInsert (h : S → Nat) (t : List (Option S)) (x : S) : List (Option S) :=
  match probeFind t x 64 (h x % 8) (h x) with
  | some i =>
    match t[i]? with
    | some none => t.set i (some x)
    | _ => t
  | none => t

/-- Python `list(set(xs))` for string lists of at most four distinct
elements: insert every element in list order into the 8-slot table, then read
the slots in index order (set iteration order). -/
def pySetList (h : S → Nat) (xs : List S) : List S :=
  (xs.foldl (pySetInsert h) (List.replicate 8 none)).filterMap id

/-- The content-hashing pipeline of hash.py lines 177 and 186-188:
deduplicate the path list with `list(set(...))`, hash the result, then absorb
`runtime` and `build_command`. -/
def hashPipeline (h : S → Nat) (fs : PyFS) (cwd : S) (paths : List S)
    (runtime buildCommand : S) : S :=
  hashStream fs cwd (pySetList h paths) runtime buildCommand

/-- The error a statement of `build_relative_path` can raise: list indexing
out of range. -/
inductive PyErr where
  | indexError
deriving DecidableEq

/-- `get_abs_dirname(p)` from hash.py: absolutize, then — despite the
function's docstring — return `os.path.basename(p)` when `p` is a file. -/
def get_abs_dirname (fs : PyFS) (cwd p : S) : S :=
  let p' := pyAbspath cwd p
  if isfile fs p' then pyBasename p' else p'

/-- Modelled from the spec (§4.3 step 1), for comparison with
`get_abs_dirname`: if the resolved path is a file, use its containing
directory's absolute form for comparison purposes. -/
def spec_comparison_value (fs : PyFS) (cwd p : S) : S :=
  let p' := pyAbspath cwd p
  if isfile fs p' then pyDirname p' else p'

/-- The prefix-matching loop of `build_relative_path`: walk the elements of
`aelem`, comparing each against `belem[len(selem)]`; indexing past the end of
`belem` raises IndexError. -/
def prefixLoop (belem : List S) : List S → List S → Except PyErr (List S)
  | [], selem => .ok selem
  | e :: rest, selem =>
    match belem[selem.length]? with
    | none => .error .indexError
    | some x => if e = x then prefixLoop belem rest (selem ++ [e]) else .ok selem

/-- `build_relative_path(a, b)` from hash.py: equal comparison forms return
`a` unchanged; fewer than two matched segments return the comparison form of
`a`; otherwise the matched prefix is removed from `b`'s comparison form by
`str.replace` (all occurrences) plus dropping one slash, and one `../` per
remaining segment is emitted, followed by the original `a`. -/
def build_relative_path (fs : PyFS) (cwd a b : S) : Except PyErr S :=
  let aa := get_abs_dirname fs cwd a
  let ba := get_abs_dirname fs cwd b
  if aa = ba then .ok a
  else
    match prefixLoop (split '/' ba) (split '/' aa) [] with
    | .error e => .error e
    | .ok selem =>
      if selem.length < 2 then .ok aa
      else
        let rem := removeFirstSlash (replaceAll (joinChar '/' selem) [] ba)
        let relPath := (split '/' rem).foldl (fun acc _ => acc ++ str "../") []
        .ok (relPath ++ a)

/-- Resolving a returned relative string against the reference root:
`os.path.normpath(os.path.join(root, rel))`. -/
def resolveAgainst (rel root : S) : S := pyNormpath (pyJoin root rel)

/-- A model filesystem for the retention sweeper: paths are strings relative
to the process working directory; each file carries its modification time in
seconds since the epoch (`datetime` values are compared exactly as their
timestamps). `locked` maps paths to the errno that `os.remove` raises on
them; removal of an unlisted existing path succeeds. -/
structure SweepFS where
  files : List (S × Nat)
  locked : List (S × Nat)
deriving DecidableEq

/-- A raised `OSError`, identified by its errno. -/
structure OSErr where
  errno : Nat
deriving DecidableEq

/-- `errno.ENOENT`. -/
def ENOENT : Nat := 2

/-- Association-list lookup for the sweeper tables. -/
def lookupT (l : List (S × Nat)) (k : S) : Option Nat :=
  (l.find? (fun e => decide (e.1 = k))).map (fun e => e.2)

/-- Python `os.listdir(d)`: the names of the entries directly inside `d`
(the model tracks regular files only). -/
def listdir (fs : SweepFS) (d : S) : List S :=
  (fs.files.filter
    (fun e => (d ++ ['/']).isPrefixOf e.1 && ! (e.1.drop (d.length + 1)).contains '/')).map
    (fun e => e.1.drop (d.length + 1))

/-- Python `os.path.getmtime(p)`: the stored mtime, or OSError(ENOENT). -/
def getmtime (fs : SweepFS) (p : S) : Except OSErr Nat :=
  match lookupT fs.files p with
  | some t => .ok t
  | none => .error ⟨ENOENT⟩

/-- Python `os.remove(p)`: ENOENT for a missing path, the listed errno for a
locked path, otherwise delete the entry. -/
def osRemove (fs : SweepFS) (p : S) : Except OSErr SweepFS :=
  match lookupT fs.files p with
  | none => .error ⟨ENOENT⟩
  | some _ =>
    match lookupT fs.locked p with
    | some e => .error ⟨e⟩
    | none => .ok { fs with files := fs.files.filter (fun x => ! decide (x.1 = p)) }

/-- The body of the `try` block in `delete_old_archives` for one candidate:
stat the file — the bare `name`, which the OS resolves in the working
directory, not inside `builds/` — and remove it when strictly older than the
cutoff. -/
def tryDelete (cutoff : Nat) (fs : SweepFS) (name : S) : Except OSErr SweepFS :=
  match getmtime fs name with
  | .error e => .error e
  | .ok t => if t < cutoff then osRemove fs name else .ok fs

/-- The loop of `delete_old_archives`: each `.zip`-suffixed name is tried; an
OSError with errno ENOENT is ignored and the loop continues, any other
OSError propagates. -/
def sweepNames (cutoff : Nat) : List S → SweepFS → Except OSErr SweepFS
  | [], fs => .ok fs
  | name :: rest, fs =>
    if (str ".zip").isSuffixOf name then
      match tryDelete cutoff fs name with
      | .ok fs' => sweepNames cutoff rest fs'
      | .error e => if e.errno = ENOENT then sweepNames cutoff rest fs else .error e
    else sweepNames cutoff rest fs

/-- `delete_old_archives()` from hash.py, with `now` explicit (seconds):
sweep the names listed in `builds` with the cutoff `now` minus seven days. -/
def delete_old_archives (now : Nat) (fs : SweepFS) : Except OSErr SweepFS :=
  sweepNames (now - 7 * 86400) (listdir fs (str "builds")) fs

/-- The resolved `source_path` of the query (hash.py line 163). -/
def source_path_resolved (cwd q : S) : S := pyAbspath cwd q

/-- The validation guard of hash.py lines 166-167: `abort` runs exactly when
the resolved source path is the empty string (Python string falsiness). -/
def validationAborts (cwd q : S) : Bool := (source_path_resolved cwd q).isEmpty

/-- Fixture: files `/a` and `/b` with distinct one-byte contents. -/
def fsAB : PyFS := ⟨[(str "/a", str "0"), (str "/b", str "1")], []⟩

/-- Fixture hash seed: a process hash function under which `/a` and `/b`
collide modulo the table size (both probe slot 0 first). -/
def hColl : S → Nat := fun s => if s = str "/b" then 8 else 0

/-- Fixture: a single regular file `/r/f.py`. -/
def fsFile : PyFS := ⟨[(str "/r/f.py", str "x")], [str "/r"]⟩

/-- Fixture: the empty filesystem. -/
def fsEmpty : PyFS := ⟨[], []⟩

/-- Fixture: `builds/` holds a 10-day-old and a 1-day-old archive (with
`now = 1728000`, i.e. day 20); nothing sits in the working directory itself. -/
def sweepFS0 : SweepFS := ⟨[(str "builds/old.zip", 864000), (str "builds/new.zip", 1641600)], []⟩

/-- Fixture: a single file named `ab` with content `c`. -/
def fsNameAB : PyFS := ⟨[(str "/d/ab", str "c")], []⟩

/-- Fixture: a single file named `a` with content `bc`. -/
def fsNameA : PyFS := ⟨[(str "/d/a", str "bc")], []⟩

/-- Fixture: a sweep state whose only file `a.zip` (mtime 0) raises errno 13
(EACCES) on removal. -/
def c8fs : SweepFS := ⟨[(str "a.zip", 0)], [(str "a.zip", 13)]⟩

/-- A well-formed path segment: nonempty, slash-free, and not one of the
special components `.` and `..`. -/
def GoodSeg (s : S) : Prop := s ≠ [] ∧ '/' ∉ s ∧ s ≠ ['.'] ∧ s ≠ str ".."

instance : DecidablePred GoodSeg := fun s => by unfold GoodSeg; infer_instance

/-- All segments of a list are well formed. -/
def GoodSegs (l : List S) : Prop := ∀ s ∈ l, GoodSeg s

instance (l : List S) : Decidable (GoodSegs l) := List.decidableBAll _ l

/-- The absolute normalized path with the given segments. -/
def absOf (segs : List S) : S := joinChar '/' ([] :: segs)

/-- An input directory tree: relative file paths, as segment lists, paired
with contents. -/
abbrev Tree := List (List S × S)

/-- Mount a directory tree at an absolute root: the files sit at
`root ++ "/" ++ rel`, and the root itself is the only directory the hasher
asks about. -/
def mountTree (rsegs : List S) (tree : Tree) : PyFS :=
  ⟨tree.map (fun e => (absOf rsegs ++ '/' :: joinChar '/' e.1, e.2)), [absOf rsegs]⟩

/-- The content of the first tree entry with the given joined relative path
(the tree-level view of `lookupFile` on a mounted tree). -/
def treeValue (tree : Tree) (rel : S) : S :=
  ((tree.find? (fun e => decide (joinChar '/' e.1 = rel))).map (fun e => e.2)).getD []

/-- The `../` climb emitted by `build_relative_path`: `n` copies of `../`. -/
def dotsClimb (n : Nat) : S := (List.replicate n (str "../")).flatten

/-- Whether a computation completed without raising. -/
def exceptIsOk {ε α : Type} : Except ε α → Bool
  | .ok _ => true
  | .error _ => false

/-- Fixture: a two-file tree (`f` and `d/g`) used by the path-independence
witness. -/
def c2tree : Tree := [([str "f"], str "01"), ([str "d", str "g"], str "2")]

/-- Claim C1 (code evaluated at the failing input): the content-hashing
pipeline is not order-independent. Under a process hash seed where the two
paths' hashes collide modulo the table size, feeding the same two paths in
the two orders makes `list(set(...))` emit them in different orders, and the
absorbed digest streams differ. -/
theorem c1_order_dependent :
    hashPipeline hColl fsAB (str "/m") [str "/a", str "/b"] (str "go") (str "zip") ≠
      hashPipeline hColl fsAB (str "/m") [str "/b", str "/a"] (str "go") (str "zip") := by
  decide

/-- Claim C4 (code evaluated at the failing input): for the file `/r/f.py`,
`get_abs_dirname` — the comparison value of the relativizer — returns the
file's base name `f.py`, not the absolute containing directory `/r` that the
claim (and the function's own docstring) describes. -/
theorem c4_comparison_is_basename :
    get_abs_dirname fsFile (str "/m") (str "/r/f.py") = str "f.py" ∧
      spec_comparison_value fsFile (str "/m") (str "/r/f.py") = str "/r" ∧
      ¬ str "f.py" = str "/r" := by
  exact ⟨rfl, rfl, by decide⟩

/-- Claim C7 (code evaluated at the failing input): with `builds/` holding a
10-day-old and a 1-day-old archive and nothing in the working directory, the
sweep returns the filesystem unchanged — it stats the bare name in the
working directory rather than inside `builds/`, receives ENOENT and ignores
it — even though the 10-day-old archive is strictly older than the 7-day
cutoff. -/
theorem c7_sweep_removes_nothing :
    delete_old_archives 1728000 sweepFS0 = .ok sweepFS0 ∧
      lookupT sweepFS0.files (str "builds/old.zip") = some 864000 ∧
      864000 < 1728000 - 7 * 86400 := by
  exact ⟨rfl, rfl, by decide⟩

/-- Claim C10: the per-file fold concatenates relative-path bytes and content
bytes with no separator, so the single-file inputs (name `ab`, content `c`)
and (name `a`, content `bc`) absorb the identical stream `abc` — hence the
identical SHA-256 digest — although the (name, content) pairs differ. -/
theorem c10_boundary_collision :
    generate_content_hash fsNameAB (str "/m") [str "/d/ab"] =
        generate_content_hash fsNameA (str "/m") [str "/d/a"] ∧
      generate_content_hash fsNameAB (str "/m") [str "/d/ab"] = str "abc" ∧
      ¬ (str "ab", str "c") = (str "a", str "bc") := by
  exact ⟨rfl, rfl, by decide⟩

/-- Claim C3 counterexample: on inputs `/x/y/z` and `/x/y` (no files
involved), the prefix loop of `build_relative_path` matches all of the root's
segments and then indexes past the end of `belem`, raising IndexError — the
function does not always return a string. -/
theorem c3_counterexample :
    build_relative_path fsEmpty (str "/m") (str "/x/y/z") (str "/x/y") = .error .indexError := by
  exact rfl

/-- Claim C5 counterexample: `/x/y/p` and `/x/y/r` share the common ancestor
`/x/y`, two segments deep (three matched components), yet the returned string
`..//x/y/p` — the climb followed by the original absolute path — resolves
against the root to `/x/y/x/y/p`, not to the original resolved path
`/x/y/p`. -/
theorem c5_counterexample :
    build_relative_path fsEmpty (str "/m") (str "/x/y/p") (str "/x/y/r") = .ok (str "..//x/y/p") ∧
      (lcp (split '/' (str "/x/y/p")) (split '/' (str "/x/y/r"))).length = 3 ∧
      ¬ resolveAgainst (str "..//x/y/p") (str "/x/y/r") = pyAbspath (str "/m") (str "/x/y/p") := by
  exact ⟨rfl, rfl, by decide⟩

/-- Claim C6 counterexample: the file `/r/f.py` against the root `/q/z` has
zero matching leading segments, and the fallback returns `f.py` — the file's
base name, via `get_abs_dirname` — not the absolute form `/r/f.py` of the
original path. -/
theorem c6_counterexample :
    build_relative_path fsFile (str "/m") (str "/r/f.py") (str "/q/z") = .ok (str "f.py") ∧
      ¬ str "f.py" = pyAbspath (str "/m") (str "/r/f.py") := by
  exact ⟨rfl, by decide⟩

/-- Running `splitAux` through a separator-free segment followed by an
explicit separator emits one part and continues after the separator. -/
theorem splitAux_no_sep (c : Char) (seg : S) (hs : c ∉ seg) (rest acc : S) :
    splitAux c (seg ++ c :: rest) acc = (acc.reverse ++ seg) :: splitAux c rest [] := by
  induction seg generalizing acc with
  | nil => simp [splitAux]
  | cons x xs ih =>
    have hx : ¬ x = c := fun h => hs (List.mem_cons.mpr (Or.inl h.symm))
    simp only [List.cons_append, splitAux, if_neg hx, List.append_eq]
    rw [ih (fun h => hs (List.mem_cons_of_mem _ h))]
    simp

/-- Running `splitAux` over a separator-free final segment emits it as the
last part. -/
theorem splitAux_last (c : Char) (seg : S) (hs : c ∉ seg) (acc : S) :
    splitAux c seg acc = [acc.reverse ++ seg] := by
  induction seg generalizing acc with
  | nil => simp [splitAux]
  | cons x xs ih =>
    have hx : ¬ x = c := fun h => hs (List.mem_cons.mpr (Or.inl h.symm))
    simp only [splitAux, if_neg hx]
    rw [ih (fun h => hs (List.mem_cons_of_mem _ h))]
    simp

/-- `splitAux` distributes over an explicit separator. -/
theorem splitAux_append_sep (c : Char) (u : S) : ∀ (acc v : S),
    splitAux c (u ++ c :: v) acc = splitAux c u acc ++ split c v := by
  induction u with
  | nil => intro acc v; simp [splitAux, split]
  | cons x xs ih =>
    intro acc v
    by_cases hx : x = c
    · subst hx; simp [splitAux, ih, split]
    · simp [splitAux, hx, ih]

/-- `split` distributes over an explicit separator. -/
theorem split_append_sep (c : Char) (u v : S) :
    split c (u ++ c :: v) = split c u ++ split c v :=
  splitAux_append_sep c u [] v

/-- `split` never returns the empty list. -/
theorem split_ne_nil (c : Char) (s : S) : ¬ split c s = [] := by
  suffices h : ∀ acc, ¬ splitAux c s acc = [] from h []
  induction s with
  | nil => intro acc; simp [splitAux]
  | cons x xs ih =>
    intro acc
    by_cases hx : x = c
    · simp [splitAux, hx]
    · simp only [splitAux, if_neg hx]
      exact ih _

/-- `joinChar` on a cons with a nonempty tail. -/
theorem joinChar_cons (c : Char) (x : S) (l : List S) (h : ¬ l = []) :
    joinChar c (x :: l) = x ++ c :: joinChar c l := by
  cases l with
  | nil => exact absurd rfl h
  | cons y ys => rfl

/-- `joinChar` distributes over the append of nonempty lists. -/
theorem joinChar_append (c : Char) : ∀ (l₁ l₂ : List S), ¬ l₁ = [] → ¬ l₂ = [] →
    joinChar c (l₁ ++ l₂) = joinChar c l₁ ++ c :: joinChar c l₂ := by
  intro l₁
  induction l₁ with
  | nil => intro l₂ h _; exact absurd rfl h
  | cons x xs ih =>
    intro l₂ _ h₂
    cases xs with
    | nil => simp [joinChar_cons c x l₂ h₂, joinChar]
    | cons y ys =>
      rw [List.cons_append, joinChar_cons c x ((y :: ys) ++ l₂) (by simp),
        joinChar_cons c x (y :: ys) (by simp), ih l₂ (by simp) h₂]
      simp

/-- Splitting an interleaved join recovers the parts, provided none of them
contains the separator. -/
theorem split_joinChar (c : Char) : ∀ (l : List S), ¬ l = [] → (∀ s ∈ l, c ∉ s) →
    split c (joinChar c l) = l := by
  intro l
  induction l with
  | nil => intro h; exact absurd rfl h
  | cons x xs ih =>
    intro _ hall
    cases xs with
    | nil => simpa [joinChar, split] using splitAux_last c x (hall x (by simp)) []
    | cons y ys =>
      rw [joinChar_cons c x (y :: ys) (by simp), split,
        splitAux_no_sep c x (hall x (by simp)) _ []]
      simp only [List.reverse_nil, List.nil_append]
      rw [show splitAux c (joinChar c (y :: ys)) [] = split c (joinChar c (y :: ys)) from rfl,
        ih (by simp) (fun s hs => hall s (List.mem_cons_of_mem _ hs))]

/-- A join of well-formed segments is nonempty. -/
theorem joinChar_ne_nil (c : Char) (l : List S) (hl : GoodSegs l) (h : ¬ l = []) :
    ¬ joinChar c l = [] := by
  cases l with
  | nil => exact absurd rfl h
  | cons x xs =>
    cases xs with
    | nil => exact (hl x (by simp)).1
    | cons y ys => rw [joinChar_cons c x (y :: ys) (by simp)]; simp

/-- The first character of a join starting with a nonempty part is that
part's first character. -/
theorem head_joinChar (c : Char) (x : S) (l : List S) (hx : ¬ x = []) :
    (joinChar c (x :: l)).head? = x.head? := by
  cases l with
  | nil => rfl
  | cons y ys =>
    rw [joinChar_cons c x (y :: ys) (by simp)]
    cases x with
    | nil => exact absurd rfl hx
    | cons a as => rfl

/-- The last character of a slash-join of well-formed segments is not a
slash (it lies in the final segment). -/
theorem getLast_joinChar (l : List S) (hl : GoodSegs l) (h : ¬ l = []) :
    ∀ ch, (joinChar '/' l).getLast? = some ch → ¬ ch = '/' := by
  induction l with
  | nil => exact absurd rfl h
  | cons x xs ih =>
    cases xs with
    | nil =>
      intro ch hch hc
      subst hc
      have hx := hl x (by simp)
      have hmem : '/' ∈ x := by
        obtain ⟨hne, heq⟩ := List.mem_getLast?_eq_getLast (by simpa [joinChar] using hch)
        rw [heq]
        exact List.getLast_mem hne
      exact hx.2.1 hmem
    | cons y ys =>
      intro ch hch
      have hgood : GoodSegs (y :: ys) := fun s hs => hl s (List.mem_cons_of_mem _ hs)
      have h2 : ¬ ('/' :: joinChar '/' (y :: ys)) = [] := by simp
      have h3 := joinChar_ne_nil '/' (y :: ys) hgood (by simp)
      rw [joinChar_cons '/' x (y :: ys) (by simp),
        List.getLast?_append_of_ne_nil x h2,
        show ('/' :: joinChar '/' (y :: ys)) = ['/'] ++ joinChar '/' (y :: ys) from rfl,
        List.getLast?_append_of_ne_nil ['/'] h3] at hch
      exact ih hgood (by simp) ch hch

/-- `normStep` skips the empty component. -/
theorem normStep_nil (slashes : Nat) (acc : List S) : normStep slashes acc [] = acc := by
  unfold normStep
  rw [if_pos (Or.inl rfl)]

/-- `normStep` appends a well-formed component. -/
theorem normStep_good (slashes : Nat) (acc : List S) (comp : S) (h : GoodSeg comp) :
    normStep slashes acc comp = acc ++ [comp] := by
  obtain ⟨h1, _, h3, h4⟩ := h
  have hng : ¬ (comp = [] ∨ comp = ['.']) := by
    rintro (hc | hc)
    · exact h1 hc
    · exact h3 hc
  unfold normStep
  rw [if_neg hng, if_pos (Or.inl h4)]

/-- Folding `normStep` over well-formed components appends them all. -/
theorem foldl_normStep_good (slashes : Nat) : ∀ (l : List S), GoodSegs l → ∀ (acc : List S),
    l.foldl (normStep slashes) acc = acc ++ l := by
  intro l
  induction l with
  | nil => intro _ acc; simp
  | cons x xs ih =>
    intro hl acc
    rw [List.foldl_cons, normStep_good slashes acc x (hl x (by simp)),
      ih (fun s hs => hl s (List.mem_cons_of_mem _ hs)) (acc ++ [x])]
    simp

/-- One `..` component pops the last accumulated component, provided that
component is not itself `..`. -/
theorem normStep_dotdot (slashes : Nat) (acc : List S) (z : S) (hz : ¬ z = str "..") :
    normStep slashes (acc ++ [z]) (str "..") = acc := by
  have h2 : ¬ (str ".." ≠ str ".." ∨ (slashes = 0 ∧ acc ++ [z] = []) ∨
      (acc ++ [z]).getLast? = some (str "..")) := by
    rintro (hc | ⟨_, hc⟩ | hc)
    · exact hc rfl
    · simp at hc
    · rw [List.getLast?_concat] at hc
      exact hz (Option.some.inj hc)
  unfold normStep
  rw [if_neg (by decide), if_neg h2, if_pos (by simp)]
  exact List.dropLast_concat

/-- Folding a run of `..` components pops an equally long run of trailing
well-formed components. -/
theorem foldl_normStep_pops (slashes : Nat) (rest : List S) :
    ∀ (pops : List S), GoodSegs pops → ∀ (base : List S),
    (List.replicate pops.length (str "..") ++ rest).foldl (normStep slashes) (base ++ pops) =
      rest.foldl (normStep slashes) base := by
  intro pops
  induction pops using List.reverseRecOn with
  | nil => intro _ base; simp
  | append_singleton ps z ih =>
    intro hgood base
    have hz : ¬ z = str ".." := (hgood z (by simp)).2.2.2
    rw [List.length_append, List.length_cons, List.length_nil]
    rw [List.replicate_succ, List.cons_append, List.foldl_cons,
      show base ++ (ps ++ [z]) = (base ++ ps) ++ [z] from (List.append_assoc base ps [z]).symm,
      normStep_dotdot slashes (base ++ ps) z hz]
    exact ih (fun s hs => hgood s (List.mem_append_left _ hs)) base

/-- Evaluation driver for `pyNormpath` on an absolute path whose second
character is not a slash: the result is the slash-join of whatever the
component loop produces, with the root slash restored. -/
theorem pyNormpath_shape (a : Char) (t : S) (ha : ¬ a = '/') (out : List S)
    (hout : (split '/' ('/' :: a :: t)).foldl (normStep 1) [] = out) :
    pyNormpath ('/' :: a :: t) = '/' :: joinChar '/' out := by
  unfold pyNormpath
  rw [if_neg (by simp)]
  dsimp only
  have habs : isAbs ('/' :: a :: t) = true := rfl
  have htake : ¬ (('/' :: a :: t).take 2 = str "//" ∧ ¬ ('/' :: a :: t).take 3 = str "///") := by
    intro hc
    have h1 := hc.1
    rw [show ('/' :: a :: t).take 2 = ['/', a] from rfl,
      show str "//" = ['/', '/'] from rfl] at h1
    simp at h1
    exact ha h1
  rw [if_pos habs, if_neg htake, hout]
  rw [if_neg (by simp)]
  rfl

/-- `absOf` of a nonempty segment list starts with the root slash. -/
theorem absOf_cons (l : List S) (h : ¬ l = []) : absOf l = '/' :: joinChar '/' l := by
  unfold absOf
  rw [joinChar_cons '/' [] l h]
  rfl

/-- The slash-join of a well-formed nonempty segment list starts with a
non-slash character. -/
theorem joinChar_shape (l : List S) (hg : GoodSegs l) (h : ¬ l = []) :
    ∃ a t, joinChar '/' l = a :: t ∧ ¬ a = '/' := by
  obtain ⟨s₀, ss, rfl⟩ : ∃ s₀ ss, l = s₀ :: ss := by
    cases l with
    | nil => exact absurd rfl h
    | cons x xs => exact ⟨x, xs, rfl⟩
  have h0 := hg s₀ (by simp)
  obtain ⟨a, s₀', rfl⟩ : ∃ a u, s₀ = a :: u := by
    cases s₀ with
    | nil => exact absurd rfl h0.1
    | cons x xs => exact ⟨x, xs, rfl⟩
  have ha : ¬ a = '/' := fun hc => h0.2.1 (by rw [hc]; simp)
  have hh : (joinChar '/' ((a :: s₀') :: ss)).head? = some a := head_joinChar '/' _ ss (by simp)
  cases hj : joinChar '/' ((a :: s₀') :: ss) with
  | nil => rw [hj] at hh; simp at hh
  | cons b bs =>
    rw [hj] at hh
    simp at hh
    exact ⟨b, bs, rfl, hh ▸ ha⟩

/-- `split` of a well-formed absolute path recovers the root and segments. -/
theorem split_absOf (l : List S) (hg : GoodSegs l) (_h : ¬ l = []) :
    split '/' (absOf l) = [] :: l := by
  unfold absOf
  refine split_joinChar '/' ([] :: l) (by simp) ?_
  intro s hs
  rcases List.mem_cons.mp hs with h1 | h1
  · subst h1; simp
  · exact (hg s h1).2.1

/-- `pyNormpath` fixes a well-formed absolute path. -/
theorem pyNormpath_good (segs : List S) (hg : GoodSegs segs) (hne : ¬ segs = []) :
    pyNormpath (absOf segs) = absOf segs := by
  obtain ⟨a, t, hj, ha⟩ := joinChar_shape segs hg hne
  have hshape : absOf segs = '/' :: a :: t := by rw [absOf_cons segs hne, hj]
  have hout : (split '/' ('/' :: a :: t)).foldl (normStep 1) [] = segs := by
    rw [← hshape, split_absOf segs hg hne, List.foldl_cons, normStep_nil,
      foldl_normStep_good 1 segs hg []]
    simp
  rw [hshape, pyNormpath_shape a t ha segs hout, ← hj]

/-- Python `posixpath.normpath` never returns the empty string: every branch
ends in a nonempty result (possibly `.`). -/
theorem pyNormpath_ne_nil (p : S) : ¬ pyNormpath p = [] := by
  unfold pyNormpath
  by_cases hp : p = []
  · simp [hp]
  · rw [if_neg hp]
    dsimp only
    split <;> split <;> simp_all

/-- A list that is not `[]` reports `isEmpty = false`. -/
theorem isEmpty_false_of_ne_nil {l : S} (h : ¬ l = []) : l.isEmpty = false := by
  cases l with
  | nil => exact absurd rfl h
  | cons x xs => rfl

/-- Claim C9 (code evaluated at the failing input): the resolved source path
is never the empty string — `os.path.abspath` cannot produce one — so the
abort guard of hash.py lines 166-167 can never fire; in particular an empty
`source_path` input does not abort, and processing continues. -/
theorem c9_validation_never_fires (cwd q : S) : validationAborts cwd q = false := by
  unfold validationAborts source_path_resolved pyAbspath
  exact isEmpty_false_of_ne_nil (pyNormpath_ne_nil _)

/-- Absolute strings stay absolute through `pyNormpath`. -/
theorem isAbs_pyNormpath (p : S) (h : isAbs p = true) : isAbs (pyNormpath p) = true := by
  have hp : ¬ p = [] := by
    intro hc; rw [hc] at h; simp [isAbs] at h
  unfold pyNormpath
  rw [if_neg hp]
  dsimp only
  rw [if_pos h]
  by_cases hc : p.take 2 = str "//" ∧ ¬ p.take 3 = str "///"
  · rw [if_pos hc, if_neg (by simp)]; rfl
  · rw [if_neg hc, if_neg (by simp)]; rfl

/-- `pyJoin` with an absolute left argument yields an absolute string. -/
theorem isAbs_pyJoin (cwd p : S) (h : isAbs cwd = true) : isAbs (pyJoin cwd p) = true := by
  obtain ⟨rest, rfl⟩ : ∃ rest, cwd = '/' :: rest := by
    cases cwd with
    | nil => simp [isAbs] at h
    | cons c cs =>
      have hc : c = '/' := by simpa [isAbs] using h
      exact ⟨cs, by rw [hc]⟩
  unfold pyJoin
  split
  · assumption
  · split
    · rfl
    · rfl

/-- With an absolute working directory, every `pyAbspath` result is
absolute. -/
theorem isAbs_pyAbspath (cwd p : S) (h : isAbs cwd = true) :
    isAbs (pyAbspath cwd p) = true := by
  unfold pyAbspath
  split
  · exact isAbs_pyNormpath p (by assumption)
  · exact isAbs_pyNormpath _ (isAbs_pyJoin cwd p h)

/-- `pyAbspath` of an absolute path ignores the working directory. -/
theorem pyAbspath_abs (cwd p : S) (h : isAbs p = true) :
    pyAbspath cwd p = pyNormpath p := by
  unfold pyAbspath
  rw [if_pos h]

/-- `split` peels a leading separator. -/
theorem split_cons_sep (c : Char) (xs : S) : split c (c :: xs) = [] :: split c xs := by
  have h : splitAux c (c :: xs) [] =
      if c = c then List.reverse [] :: splitAux c xs [] else splitAux c xs (c :: []) := rfl
  rw [show split c (c :: xs) = splitAux c (c :: xs) [] from rfl, h, if_pos rfl]
  rfl

/-- `lcp` of a list with itself. -/
theorem lcp_self : ∀ (l : List S), lcp l l = l := by
  intro l
  induction l with
  | nil => rfl
  | cons x xs ih =>
    show (if x = x then x :: lcp xs xs else []) = x :: xs
    rw [if_pos rfl, ih]

/-- `lcp` of a list with an extension of itself. -/
theorem lcp_append (m : List S) : ∀ (l : List S), lcp l (l ++ m) = l := by
  intro l
  induction l with
  | nil => cases m <;> rfl
  | cons x xs ih =>
    show (if x = x then x :: lcp xs (xs ++ m) else []) = x :: xs
    rw [if_pos rfl, ih]

/-- If the root's remaining segments are not a strict segment-prefix of the
remaining path segments, the prefix loop of `build_relative_path` terminates
without an IndexError. -/
theorem prefixLoop_isOk : ∀ (ael belem selem : List S),
    ¬ (belem.drop selem.length <+: ael ∧ (belem.drop selem.length).length < ael.length) →
    exceptIsOk (prefixLoop belem ael selem) = true := by
  intro ael
  induction ael with
  | nil => intro belem selem _; rfl
  | cons e rest ih =>
    intro belem selem h
    unfold prefixLoop
    cases hb : belem[selem.length]? with
    | none =>
      exfalso
      apply h
      rw [List.drop_eq_nil_of_le (List.getElem?_eq_none_iff.mp hb)]
      exact ⟨List.nil_prefix, by simp⟩
    | some x =>
      show exceptIsOk (if e = x then prefixLoop belem rest (selem ++ [e]) else .ok selem) = true
      by_cases hex : e = x
      · rw [if_pos hex]
        apply ih
        intro hcon
        apply h
        obtain ⟨hlt, hgx⟩ := List.getElem?_eq_some.mp hb
        simp only [List.length_append, List.length_cons, List.length_nil, Nat.zero_add] at hcon
        rw [List.drop_eq_getElem_cons hlt, hgx, hex]
        refine ⟨List.cons_prefix_cons.mpr ⟨rfl, hcon.1⟩, ?_⟩
        rw [List.length_cons, List.length_cons]
        exact Nat.succ_lt_succ hcon.2
      · rw [if_neg hex]
        rfl

/-- Claim C3 as amended: `build_relative_path` returns a string without
raising, provided the comparison form of the root, split into segments, is
not a strict prefix of the comparison form of the path's segments; when it
is, the prefix loop indexes past the end of the root's segment list and
raises IndexError (see the counterexample). -/
theorem c3_amended (fs : PyFS) (cwd a b : S)
    (h : ¬ (split '/' (get_abs_dirname fs cwd b) <+: split '/' (get_abs_dirname fs cwd a) ∧
        (split '/' (get_abs_dirname fs cwd b)).length <
          (split '/' (get_abs_dirname fs cwd a)).length)) :
    exceptIsOk (build_relative_path fs cwd a b) = true := by
  unfold build_relative_path
  by_cases heq : get_abs_dirname fs cwd a = get_abs_dirname fs cwd b
  · rw [if_pos heq]; rfl
  · rw [if_neg heq]
    have hok := prefixLoop_isOk (split '/' (get_abs_dirname fs cwd a))
      (split '/' (get_abs_dirname fs cwd b)) [] (by simpa using h)
    cases hpl : prefixLoop (split '/' (get_abs_dirname fs cwd b))
        (split '/' (get_abs_dirname fs cwd a)) [] with
    | error e => rw [hpl] at hok; simp [exceptIsOk] at hok
    | ok selem =>
      dsimp only
      split
      · rfl
      · rfl

/-- Claim C3 amended witness: a concrete input where the root is not a
segment-prefix of the path, so the relativizer returns a string. -/
theorem c3_amended_witness :
    ¬ (split '/' (get_abs_dirname fsEmpty (str "/m") (str "/y/q")) <+:
          split '/' (get_abs_dirname fsEmpty (str "/m") (str "/x/p")) ∧
        (split '/' (get_abs_dirname fsEmpty (str "/m") (str "/y/q"))).length <
          (split '/' (get_abs_dirname fsEmpty (str "/m") (str "/x/p"))).length) ∧
      exceptIsOk (build_relative_path fsEmpty (str "/m") (str "/x/p") (str "/y/q")) = true :=
  ⟨by decide, c3_amended fsEmpty (str "/m") (str "/x/p") (str "/y/q") (by decide)⟩

/-- Claim C6 as amended: with an absolute working directory, when neither
resolved endpoint is a regular file and the resolved forms share fewer than
two leading segments, the fallback returns the absolute form of the original
path; when the resolved path is a regular file the function instead returns
only the file's base name (see the counterexample). -/
theorem c6_amended (fs : PyFS) (cwd a b : S)
    (hcwd : isAbs cwd = true)
    (hfa : isfile fs (pyAbspath cwd a) = false)
    (hfb : isfile fs (pyAbspath cwd b) = false)
    (hlcp : (lcp (split '/' (pyAbspath cwd a)) (split '/' (pyAbspath cwd b))).length < 2) :
    build_relative_path fs cwd a b = .ok (pyAbspath cwd a) := by
  have haa : get_abs_dirname fs cwd a = pyAbspath cwd a := by
    simp [get_abs_dirname, hfa]
  have hba : get_abs_dirname fs cwd b = pyAbspath cwd b := by
    simp [get_abs_dirname, hfb]
  obtain ⟨ra, hra⟩ : ∃ ra, pyAbspath cwd a = '/' :: ra := by
    have := isAbs_pyAbspath cwd a hcwd
    cases hp : pyAbspath cwd a with
    | nil => rw [hp] at this; simp [isAbs] at this
    | cons c cs =>
      rw [hp] at this
      have hc : c = '/' := by simpa [isAbs] using this
      exact ⟨cs, by rw [hc]⟩
  obtain ⟨rb, hrb⟩ : ∃ rb, pyAbspath cwd b = '/' :: rb := by
    have := isAbs_pyAbspath cwd b hcwd
    cases hp : pyAbspath cwd b with
    | nil => rw [hp] at this; simp [isAbs] at this
    | cons c cs =>
      rw [hp] at this
      have hc : c = '/' := by simpa [isAbs] using this
      exact ⟨cs, by rw [hc]⟩
  obtain ⟨x, as2, hxa⟩ : ∃ x as2, split '/' ra = x :: as2 := by
    cases hs : split '/' ra with
    | nil => exact absurd hs (split_ne_nil '/' ra)
    | cons u us => exact ⟨u, us, rfl⟩
  obtain ⟨y, bs2, hyb⟩ : ∃ y bs2, split '/' rb = y :: bs2 := by
    cases hs : split '/' rb with
    | nil => exact absurd hs (split_ne_nil '/' rb)
    | cons u us => exact ⟨u, us, rfl⟩
  have hsa : split '/' (pyAbspath cwd a) = [] :: x :: as2 := by
    rw [hra, split_cons_sep, hxa]
  have hsb : split '/' (pyAbspath cwd b) = [] :: y :: bs2 := by
    rw [hrb, split_cons_sep, hyb]
  have hxy : ¬ x = y := by
    intro hc
    rw [hsa, hsb] at hlcp
    unfold lcp at hlcp
    rw [if_pos rfl] at hlcp
    unfold lcp at hlcp
    rw [if_pos hc] at hlcp
    simp only [List.length_cons] at hlcp
    omega
  have heq : ¬ get_abs_dirname fs cwd a = get_abs_dirname fs cwd b := by
    intro hc
    rw [haa, hba] at hc
    rw [hc, lcp_self, hsb] at hlcp
    simp only [List.length_cons] at hlcp
    omega
  have hloop : prefixLoop ([] :: y :: bs2) ([] :: x :: as2) [] = .ok [([] : S)] := by
    simp [prefixLoop, hxy]
  unfold build_relative_path
  rw [if_neg heq, haa, hba, hsa, hsb, hloop]
  dsimp only
  split
  · rfl
  · exact absurd (show ([([] : S)]).length < 2 by simp) (by assumption)

/-- Code-point comparison cancels a common prefix. -/
theorem strLt_append_left : ∀ (p a b : S), strLt (p ++ a) (p ++ b) = strLt a b := by
  intro p a b
  induction p with
  | nil => rfl
  | cons c cs ih =>
    have hh : strLt (c :: (cs ++ a)) (c :: (cs ++ b)) =
        if c.toNat < c.toNat then true
        else if c.toNat < c.toNat then false else strLt (cs ++ a) (cs ++ b) := rfl
    have hcc : ¬ c.toNat < c.toNat := Nat.lt_irrefl _
    rw [List.cons_append, List.cons_append, hh, if_neg hcc, if_neg hcc, ih]

/-- Inserting prefixed strings mirrors inserting the bare strings. -/
theorem insertSorted_map (p : S) (x : S) : ∀ (l : List S),
    insertSorted (p ++ x) (l.map (fun s => p ++ s)) =
      (insertSorted x l).map (fun s => p ++ s) := by
  intro l
  induction l with
  | nil => rfl
  | cons y ys ih =>
    have h1 : insertSorted (p ++ x) ((p ++ y) :: ys.map (fun s => p ++ s)) =
        if strLt (p ++ x) (p ++ y) then (p ++ x) :: (p ++ y) :: ys.map (fun s => p ++ s)
        else (p ++ y) :: insertSorted (p ++ x) (ys.map (fun s => p ++ s)) := rfl
    have h2 : insertSorted x (y :: ys) =
        if strLt x y then x :: y :: ys else y :: insertSorted x ys := rfl
    rw [List.map_cons, h1, h2, strLt_append_left]
    by_cases hc : strLt x y = true
    · rw [if_pos hc, if_pos hc]
      simp
    · rw [if_neg hc, if_neg hc, ih]
      simp

/-- Sorting prefixed strings mirrors sorting the bare strings. -/
theorem sortStrings_map (p : S) : ∀ (l : List S),
    sortStrings (l.map (fun s => p ++ s)) = (sortStrings l).map (fun s => p ++ s) := by
  intro l
  induction l with
  | nil => rfl
  | cons x xs ih =>
    show insertSorted (p ++ x) (sortStrings (xs.map (fun s => p ++ s))) = _
    rw [ih, insertSorted_map]
    rfl

/-- Membership through `insertSorted`. -/
theorem mem_insertSorted (x : S) : ∀ (l : List S) (s : S),
    s ∈ insertSorted x l ↔ s = x ∨ s ∈ l := by
  intro l
  induction l with
  | nil => intro s; simp [insertSorted]
  | cons y ys ih =>
    intro s
    show s ∈ (if strLt x y then x :: y :: ys else y :: insertSorted x ys) ↔ _
    split
    · rw [List.mem_cons, List.mem_cons]
    · rw [List.mem_cons, ih s, List.mem_cons]
      tauto

/-- Membership through `sortStrings`. -/
theorem mem_sortStrings : ∀ (l : List S) (s : S), s ∈ sortStrings l ↔ s ∈ l := by
  intro l
  induction l with
  | nil => intro s; exact Iff.rfl
  | cons x xs ih =>
    intro s
    show s ∈ insertSorted x (sortStrings xs) ↔ _
    rw [mem_insertSorted, ih s, List.mem_cons]

/-- Fold congruence over the members of the folded list. -/
theorem foldl_congr_mem {α β : Type} (l : List β) (f g : α → β → α) (init : α)
    (h : ∀ (x : α) (b : β), b ∈ l → f x b = g x b) : l.foldl f init = l.foldl g init := by
  induction l generalizing init with
  | nil => rfl
  | cons y ys ih =>
    rw [List.foldl_cons, List.foldl_cons, h init y (by simp)]
    exact ih _ (fun x b hb => h x b (List.mem_cons_of_mem _ hb))

/-- Folding block appends accumulates the flattened blocks. -/
theorem foldl_treeValue_blocks (tree : Tree) : ∀ (l : List S) (init : S),
    l.foldl (fun s r => s ++ (r ++ treeValue tree r)) init =
      init ++ (l.map (fun r => r ++ treeValue tree r)).flatten := by
  intro l
  induction l with
  | nil => intro init; simp
  | cons x xs ih =>
    intro init
    rw [List.foldl_cons, ih]
    simp

/-- `absOf` splits across an append of nonempty segment lists. -/
theorem absOf_append (l₁ l₂ : List S) (_h₁ : ¬ l₁ = []) (h₂ : ¬ l₂ = []) :
    absOf (l₁ ++ l₂) = absOf l₁ ++ '/' :: joinChar '/' l₂ := by
  unfold absOf
  rw [show ([] :: (l₁ ++ l₂) : List S) = ([] :: l₁) ++ l₂ from rfl,
    joinChar_append '/' ([] :: l₁) l₂ (by simp) h₂]

/-- `absOf` of a nonempty segment list is absolute. -/
theorem isAbs_absOf (l : List S) (h : ¬ l = []) : isAbs (absOf l) = true := by
  rw [absOf_cons l h]
  rfl

/-- Dropping empty segments from the split of a well-formed absolute path
leaves exactly its segments. -/
theorem filter_nonempty_cons_nil (l : List S) (hl : ∀ s ∈ l, ¬ s = []) :
    (([] : S) :: l).filter (fun x => ¬ x = []) = l := by
  have h1 : (([] : S) :: l).filter (fun x => ¬ x = []) = l.filter (fun x => ¬ x = []) := by
    simp [List.filter_cons]
  rw [h1, List.filter_eq_self.mpr]
  intro a ha
  simpa using hl a ha

/-- `posixpath.join(*parts)` folding over well-formed segments from a
well-terminated accumulator is the slash join. -/
theorem foldl_pyJoin_good : ∀ (xs : List S), GoodSegs xs → ∀ (acc : S), ¬ acc = [] →
    (∀ ch, acc.getLast? = some ch → ¬ ch = '/') →
    xs.foldl pyJoin acc = joinChar '/' (acc :: xs) := by
  intro xs
  induction xs with
  | nil => intro _ acc _ _; rfl
  | cons y ys ih =>
    intro hg acc hacc hlast
    have hy := hg y (by simp)
    have h1 : ¬ isAbs y = true := by
      cases y with
      | nil => exact absurd rfl hy.1
      | cons c t =>
        simp only [isAbs, decide_eq_true_eq]
        intro hc
        exact hy.2.1 (by rw [hc]; exact List.mem_cons_self '/' t)
    have h2 : ¬ (acc = [] ∨ acc.getLast? = some '/') := by
      rintro (hc | hc)
      · exact hacc hc
      · exact hlast '/' hc rfl
    have hjoin : pyJoin acc y = acc ++ '/' :: y := by
      unfold pyJoin
      rw [if_neg h1, if_neg h2]
    have hlast2 : ∀ ch, (acc ++ '/' :: y).getLast? = some ch → ¬ ch = '/' := by
      intro ch hch hc
      subst hc
      rw [List.getLast?_append_of_ne_nil acc (by simp),
        show ('/' :: y : S) = ['/'] ++ y from rfl,
        List.getLast?_append_of_ne_nil ['/'] hy.1] at hch
      obtain ⟨hne2, heq⟩ := List.mem_getLast?_eq_getLast hch
      apply hy.2.1
      rw [heq]
      exact List.getLast_mem hne2
    rw [List.foldl_cons, hjoin,
      ih (fun s hs => hg s (List.mem_cons_of_mem _ hs)) (acc ++ '/' :: y) (by simp) hlast2]
    cases ys with
    | nil => rfl
    | cons z zs =>
      rw [joinChar_cons '/' (acc ++ '/' :: y) (z :: zs) (by simp),
        joinChar_cons '/' acc (y :: z :: zs) (by simp),
        joinChar_cons '/' y (z :: zs) (by simp)]
      simp

/-- `pyJoinList` on well-formed segments is the slash join. -/
theorem pyJoinList_good (l : List S) (hg : GoodSegs l) (hne : ¬ l = []) :
    pyJoinList l = joinChar '/' l := by
  cases l with
  | nil => exact absurd rfl hne
  | cons x xs =>
    have hx := hg x (by simp)
    show xs.foldl pyJoin x = _
    refine foldl_pyJoin_good xs (fun s hs => hg s (List.mem_cons_of_mem _ hs)) x hx.1 ?_
    intro ch hch hc
    subst hc
    obtain ⟨hne2, heq⟩ := List.mem_getLast?_eq_getLast hch
    apply hx.2.1
    rw [heq]
    exact List.getLast_mem hne2

/-- `os.path.relpath` of a file under a well-formed absolute root, relative
to that root, recovers the joined relative path. -/
theorem pyRelpath_under (cwd : S) (R : List S) (hg : GoodSegs R) (hne : ¬ R = [])
    (rel : List S) (hrg : GoodSegs rel) (hrne : ¬ rel = []) :
    pyRelpath cwd (absOf R ++ '/' :: joinChar '/' rel) (absOf R) = joinChar '/' rel := by
  have hgall : GoodSegs (R ++ rel) := by
    intro s hs
    rcases List.mem_append.mp hs with hs | hs
    · exact hg s hs
    · exact hrg s hs
  have hRrel : ¬ (R ++ rel) = [] := fun hc => hne (List.append_eq_nil.mp hc).1
  have hfull : absOf R ++ '/' :: joinChar '/' rel = absOf (R ++ rel) :=
    (absOf_append R rel hne hrne).symm
  unfold pyRelpath
  rw [hfull, pyAbspath_abs cwd _ (isAbs_absOf _ hRrel), pyNormpath_good _ hgall hRrel,
    pyAbspath_abs cwd _ (isAbs_absOf _ hne), pyNormpath_good _ hg hne,
    split_absOf _ hgall hRrel, split_absOf _ hg hne,
    filter_nonempty_cons_nil _ (fun s hs => (hgall s hs).1),
    filter_nonempty_cons_nil _ (fun s hs => (hg s hs).1)]
  dsimp only
  rw [lcp_append rel R, Nat.sub_self, List.replicate_zero, List.drop_left]
  rw [if_neg (by simpa using hrne)]
  show pyJoinList ([] ++ rel) = _
  rw [List.nil_append, pyJoinList_good rel hrg hrne]

/-- The files of a mounted tree, as `filesUnder` sees them at the mount
root: exactly the joined relative paths, in tree order. -/
theorem filesUnder_mountTree (R : List S) (tree : Tree) :
    filesUnder (mountTree R tree) (absOf R) = tree.map (fun e => joinChar '/' e.1) := by
  have hall : ∀ e ∈ tree, ((fun q : S × S => (absOf R ++ ['/']).isPrefixOf q.1) ∘
      (fun e : List S × S => (absOf R ++ '/' :: joinChar '/' e.1, e.2))) e = true := by
    intro e _
    show ((absOf R ++ ['/']).isPrefixOf (absOf R ++ '/' :: joinChar '/' e.1)) = true
    rw [List.isPrefixOf_iff_prefix,
      show absOf R ++ '/' :: joinChar '/' e.1 = (absOf R ++ ['/']) ++ joinChar '/' e.1 by simp]
    exact List.prefix_append _ _
  unfold filesUnder mountTree
  rw [List.filter_map, List.filter_eq_self.mpr hall, List.map_map]
  apply List.map_congr_left
  intro e _
  show (absOf R ++ '/' :: joinChar '/' e.1).drop ((absOf R).length + 1) = joinChar '/' e.1
  rw [show absOf R ++ '/' :: joinChar '/' e.1 = (absOf R ++ ['/']) ++ joinChar '/' e.1 by simp]
  exact List.drop_left' (by simp)

/-- Looking up a mounted file by its joined path returns the first matching
tree entry's content. -/
theorem lookupFile_mountTree (R : List S) (tree : Tree) (rel : S) :
    lookupFile (mountTree R tree) (absOf R ++ '/' :: rel) =
      (tree.find? (fun e => decide (joinChar '/' e.1 = rel))).map (fun e => e.2) := by
  unfold lookupFile mountTree
  rw [List.find?_map]
  have hp : ((fun e : S × S => decide (e.1 = absOf R ++ '/' :: rel)) ∘
      (fun e : List S × S => (absOf R ++ '/' :: joinChar '/' e.1, e.2))) =
      (fun e : List S × S => decide (joinChar '/' e.1 = rel)) := by
    funext e
    show decide (absOf R ++ '/' :: joinChar '/' e.1 = absOf R ++ '/' :: rel) =
      decide (joinChar '/' e.1 = rel)
    apply decide_eq_decide.mpr
    constructor
    · intro hq
      have h2 := List.append_cancel_left hq
      simpa using h2
    · intro hq
      rw [hq]
  rw [hp, Option.map_map]
  rfl

/-- Reading a mounted file at its absolute path yields the tree content. -/
theorem readFile_mountTree (R : List S) (hg : GoodSegs R) (hne : ¬ R = []) (tree : Tree)
    (rel : List S) (hrg : GoodSegs rel) (hrne : ¬ rel = []) (cwd : S) :
    readFile (mountTree R tree) cwd (absOf R ++ '/' :: joinChar '/' rel) =
      treeValue tree (joinChar '/' rel) := by
  have hgall : GoodSegs (R ++ rel) := by
    intro s hs
    rcases List.mem_append.mp hs with hs | hs
    · exact hg s hs
    · exact hrg s hs
  have hRrel : ¬ (R ++ rel) = [] := fun hc => hne (List.append_eq_nil.mp hc).1
  have hfull : absOf R ++ '/' :: joinChar '/' rel = absOf (R ++ rel) :=
    (absOf_append R rel hne hrne).symm
  unfold readFile
  rw [hfull, pyAbspath_abs cwd _ (isAbs_absOf _ hRrel), pyNormpath_good _ hgall hRrel, ← hfull,
    lookupFile_mountTree R tree (joinChar '/' rel)]
  rfl

/-- `generate_content_hash` over one mounted directory root, in canonical
tree form: the sorted relative paths each contribute their joined relative
path followed by their content, independent of the root. -/
theorem generate_mountTree (R : List S) (hg : GoodSegs R) (hne : ¬ R = [])
    (tree : Tree) (ht : ∀ e ∈ tree, ¬ e.1 = [] ∧ GoodSegs e.1) (cwd : S) :
    generate_content_hash (mountTree R tree) cwd [absOf R] =
      ((sortStrings (tree.map (fun e => joinChar '/' e.1))).map
        (fun rel => rel ++ treeValue tree rel)).flatten := by
  have habsR : pyAbspath cwd (absOf R) = absOf R := by
    rw [pyAbspath_abs cwd _ (isAbs_absOf R hne), pyNormpath_good R hg hne]
  have hdir : isdirAt (mountTree R tree) cwd (absOf R) = true := by
    unfold isdirAt mountTree
    rw [habsR]
    simp
  have hlist : list_files (mountTree R tree) cwd (absOf R) =
      (sortStrings (tree.map (fun e => joinChar '/' e.1))).map
        (fun rel => (absOf R ++ ['/']) ++ rel) := by
    unfold list_files
    rw [habsR, filesUnder_mountTree R tree,
      show (fun rel : S => absOf R ++ '/' :: rel) = (fun rel : S => (absOf R ++ ['/']) ++ rel)
        from by funext r; simp]
    exact sortStrings_map (absOf R ++ ['/']) _
  have hpoint : ∀ (s r : S), r ∈ sortStrings (tree.map (fun e => joinChar '/' e.1)) →
      update_hash (mountTree R tree) cwd s (absOf R) ((absOf R ++ ['/']) ++ r) =
        s ++ (r ++ treeValue tree r) := by
    intro s r hr
    obtain ⟨e, he, hre⟩ := List.mem_map.mp ((mem_sortStrings _ r).mp hr)
    subst hre
    have hrel := ht e he
    unfold update_hash
    rw [show (absOf R ++ ['/']) ++ joinChar '/' e.1 = absOf R ++ '/' :: joinChar '/' e.1 by simp,
      pyRelpath_under cwd R hg hne e.1 hrel.2 hrel.1,
      readFile_mountTree R hg hne tree e.1 hrel.2 hrel.1 cwd, List.append_assoc]
  unfold generate_content_hash
  rw [List.foldl_cons, List.foldl_nil]
  rw [if_pos hdir, hlist, List.foldl_map,
    foldl_congr_mem _ _ (fun (s : S) (r : S) => s ++ (r ++ treeValue tree r)) [] hpoint,
    foldl_treeValue_blocks]
  simp

/-- Claim C2: hashing a mounted directory tree — the same relative segment
paths, the same contents, the same runtime, the same build command —
produces the same digest stream wherever the tree sits in the filesystem:
the stream depends only on the tree and the auxiliary strings, not on the
mount root or the working directory. -/
theorem c2_path_independence (R1 R2 : List S) (tree : Tree) (cwd1 cwd2 runtime cmd : S)
    (hg1 : GoodSegs R1) (h1 : ¬ R1 = []) (hg2 : GoodSegs R2) (h2 : ¬ R2 = [])
    (ht : ∀ e ∈ tree, ¬ e.1 = [] ∧ GoodSegs e.1) :
    hashStream (mountTree R1 tree) cwd1 [absOf R1] runtime cmd =
      hashStream (mountTree R2 tree) cwd2 [absOf R2] runtime cmd := by
  unfold hashStream
  rw [generate_mountTree R1 hg1 h1 tree ht cwd1, generate_mountTree R2 hg2 h2 tree ht cwd2]

/-- Claim C2 witness: one concrete two-file tree mounted at `/r1` and at
`/v/w` hashes to the same stream. -/
theorem c2_path_independence_witness :
    hashStream (mountTree [str "r1"] c2tree) (str "/m") [absOf [str "r1"]]
        (str "go") (str "zip") =
      hashStream (mountTree [str "v", str "w"] c2tree) (str "/n") [absOf [str "v", str "w"]]
        (str "go") (str "zip") :=
  c2_path_independence [str "r1"] [str "v", str "w"] c2tree (str "/m") (str "/n")
    (str "go") (str "zip") (by decide) (by decide) (by decide) (by decide) (by decide)

/-- Claim C6 amended witness: two directory-like absolute paths diverging at
their first real segment fall back to the absolute form of the path. -/
theorem c6_amended_witness :
    isfile fsEmpty (pyAbspath (str "/m") (str "/x/p")) = false ∧
      (lcp (split '/' (pyAbspath (str "/m") (str "/x/p")))
        (split '/' (pyAbspath (str "/m") (str "/y/q")))).length < 2 ∧
      build_relative_path fsEmpty (str "/m") (str "/x/p") (str "/y/q") =
        .ok (pyAbspath (str "/m") (str "/x/p")) :=
  ⟨by decide, by decide,
    c6_amended fsEmpty (str "/m") (str "/x/p") (str "/y/q")
      (by decide) (by decide) (by decide) (by decide)⟩

/-- `replaceAllFuel` with an absent pattern is the identity, for any fuel. -/
theorem replaceAllFuel_no_occurrence (pat : S) :
    ∀ (fuel : Nat) (s : S), occursIn pat s = false → replaceAllFuel pat [] fuel s = s := by
  intro fuel
  induction fuel with
  | zero => intro s _; rfl
  | succ n ih =>
    intro s hs
    cases s with
    | nil => rfl
    | cons x xs =>
      have hs2 : pat.isPrefixOf (x :: xs) = false ∧ occursIn pat xs = false := by
        simpa [occursIn] using hs
      show (if pat.isPrefixOf (x :: xs) = true then
          [] ++ replaceAllFuel pat [] n ((x :: xs).drop pat.length)
          else x :: replaceAllFuel pat [] n xs) = x :: xs
      rw [if_neg (by simp [hs2.1]), ih xs hs2.2]

/-- `str.replace(pat, '')` on a string that starts with the pattern and
contains no further occurrence removes exactly the leading pattern. -/
theorem replaceAll_strip (pat t : S) (hp : ¬ pat = []) (ht : occursIn pat t = false) :
    replaceAll pat [] (pat ++ t) = t := by
  obtain ⟨c, cs, rfl⟩ : ∃ c cs, pat = c :: cs := by
    cases pat with
    | nil => exact absurd rfl hp
    | cons c cs => exact ⟨c, cs, rfl⟩
  have hstep : replaceAll (c :: cs) [] ((c :: cs) ++ t) =
      if (c :: cs).isPrefixOf (c :: (cs ++ t)) = true then
        [] ++ replaceAllFuel (c :: cs) [] ((cs ++ t).length)
          ((c :: (cs ++ t)).drop (c :: cs : S).length)
      else c :: replaceAllFuel (c :: cs) [] ((cs ++ t).length) (cs ++ t) := rfl
  have hpre : (c :: cs).isPrefixOf (c :: (cs ++ t)) = true := by
    rw [List.isPrefixOf_iff_prefix]
    exact List.prefix_append (c :: cs) t
  have hdrop : (c :: (cs ++ t)).drop (c :: cs : S).length = t := List.drop_left (c :: cs) t
  rw [hstep, if_pos hpre, List.nil_append, hdrop,
    replaceAllFuel_no_occurrence (c :: cs) ((cs ++ t).length) t ht]

/-- `s.replace('/', '', 1)` on a string starting with a slash drops it. -/
theorem removeFirstSlash_cons (x : S) : removeFirstSlash ('/' :: x) = x := by
  show (if ('/' : Char) = '/' then x else '/' :: removeFirstSlash x) = x
  rw [if_pos rfl]

/-- One more `../` on the front of the climb. -/
theorem dotsClimb_succ (n : Nat) : dotsClimb (n + 1) = str ".." ++ '/' :: dotsClimb n := by
  unfold dotsClimb
  rw [List.replicate_succ, List.flatten_cons]
  rfl

/-- The relativizer's climb-building fold emits one `../` per element. -/
theorem foldl_climb : ∀ (l : List S) (acc : S),
    l.foldl (fun acc _ => acc ++ str "../") acc = acc ++ dotsClimb l.length := by
  intro l
  induction l with
  | nil =>
    intro acc
    show acc = acc ++ dotsClimb 0
    simp [dotsClimb]
  | cons x xs ih =>
    intro acc
    rw [List.foldl_cons, ih, List.append_assoc,
      show str "../" ++ dotsClimb xs.length = dotsClimb (xs.length + 1) from by
        rw [dotsClimb_succ]; rfl,
      List.length_cons]

/-- `split` of the climb followed by anything: one `..` per level. -/
theorem split_dotsClimb (X : S) : ∀ (n : Nat),
    split '/' (dotsClimb n ++ X) = List.replicate n (str "..") ++ split '/' X := by
  intro n
  induction n with
  | zero => simp [dotsClimb]
  | succ m ih =>
    rw [dotsClimb_succ,
      show (str ".." ++ '/' :: dotsClimb m) ++ X = str ".." ++ '/' :: (dotsClimb m ++ X) by simp,
      split_append_sep '/' (str "..") (dotsClimb m ++ X), ih,
      show split '/' (str "..") = [str ".."] from rfl, List.replicate_succ]
    rfl

/-- A well-formed absolute path is nonempty and does not end in a slash. -/
theorem absOf_not_slash_end (l : List S) (hg : GoodSegs l) (hne : ¬ l = []) :
    ¬ (absOf l = [] ∨ (absOf l).getLast? = some '/') := by
  rintro (hc | hc)
  · rw [absOf_cons l hne] at hc
    simp at hc
  · rw [absOf_cons l hne, show ('/' :: joinChar '/' l : S) = ['/'] ++ joinChar '/' l from rfl,
      List.getLast?_append_of_ne_nil ['/'] (joinChar_ne_nil '/' l hg hne)] at hc
    exact getLast_joinChar l hg hne '/' hc rfl

/-- One unfolding step of the prefix loop. -/
theorem prefixLoop_step (belem : List S) (e : S) (rest selem : List S) :
    prefixLoop belem (e :: rest) selem =
      match belem[selem.length]? with
      | none => .error .indexError
      | some x => if e = x then prefixLoop belem rest (selem ++ [e]) else .ok selem := rfl

/-- The prefix loop walking a shared pre-segment run and stopping at the
first divergence returns the matched segments. -/
theorem prefixLoop_diverge : ∀ (pre : List S) (selem : List S) (xa xb : S) (ta tb : List S),
    ¬ xa = xb →
    prefixLoop (selem ++ (pre ++ xb :: tb)) (pre ++ xa :: ta) selem = .ok (selem ++ pre) := by
  intro pre
  induction pre with
  | nil =>
    intro selem xa xb ta tb hne
    have hidx : (selem ++ xb :: tb)[selem.length]? = some xb := by
      rw [List.getElem?_append_right (Nat.le_refl _), Nat.sub_self]
      exact List.getElem?_cons_zero
    simp only [List.nil_append]
    rw [prefixLoop_step, hidx]
    dsimp only
    rw [if_neg hne, List.append_nil]
  | cons p ps ih =>
    intro selem xa xb ta tb hne
    have hidx : (selem ++ p :: (ps ++ xb :: tb))[selem.length]? = some p := by
      rw [List.getElem?_append_right (Nat.le_refl _), Nat.sub_self]
      exact List.getElem?_cons_zero
    rw [show ((p :: ps) ++ xb :: tb : List S) = p :: (ps ++ xb :: tb) from rfl,
      show ((p :: ps) ++ xa :: ta : List S) = p :: (ps ++ xa :: ta) from rfl,
      prefixLoop_step, hidx]
    dsimp only
    rw [if_pos rfl,
      show selem ++ p :: (ps ++ xb :: tb) = (selem ++ [p]) ++ (ps ++ xb :: tb) by simp,
      ih (selem ++ [p]) xa xb ta tb hne,
      show (selem ++ [p]) ++ ps = selem ++ (p :: ps) by simp]

/-- Claim C5 as amended: the round-trip holds for a path given relative to
the working directory, when the working directory is a well-formed absolute
location at least two segments deep, the reference root resolves strictly
below the working directory, the two diverge at their first remaining
segment, the working-directory string occurs in the resolved root only as
its leading prefix, and neither endpoint is a regular file. The function
then returns `../` per remaining root segment followed by the original
relative path, and resolving that against the root reproduces the resolved
path. For an absolute input path the code instead appends the absolute path
after the climb and the round-trip fails (see the counterexample). -/
theorem c5_amended (fs : PyFS) (cs rs as : List S)
    (hcs : GoodSegs cs) (hcs2 : 2 ≤ cs.length)
    (hrs : GoodSegs rs) (hrsne : ¬ rs = [])
    (has : GoodSegs as) (hasne : ¬ as = [])
    (hdiv : ¬ as.head? = rs.head?)
    (hocc : occursIn (absOf cs) ('/' :: joinChar '/' rs) = false)
    (hfa : isfile fs (pyAbspath (absOf cs) (joinChar '/' as)) = false)
    (hfb : isfile fs (absOf (cs ++ rs)) = false) :
    build_relative_path fs (absOf cs) (joinChar '/' as) (absOf (cs ++ rs)) =
        .ok (dotsClimb rs.length ++ joinChar '/' as) ∧
      resolveAgainst (dotsClimb rs.length ++ joinChar '/' as) (absOf (cs ++ rs)) =
        pyAbspath (absOf cs) (joinChar '/' as) := by
  have hcsne : ¬ cs = [] := by
    intro hc
    rw [hc] at hcs2
    simp at hcs2
  obtain ⟨xa, ta, rfl⟩ : ∃ xa ta, as = xa :: ta := by
    cases as with
    | nil => exact absurd rfl hasne
    | cons u us => exact ⟨u, us, rfl⟩
  obtain ⟨xb, tb, rfl⟩ : ∃ xb tb, rs = xb :: tb := by
    cases rs with
    | nil => exact absurd rfl hrsne
    | cons u us => exact ⟨u, us, rfl⟩
  have hxaxb : ¬ xa = xb := by simpa using hdiv
  have hgca : GoodSegs (cs ++ xa :: ta) := by
    intro s hs
    rcases List.mem_append.mp hs with hs | hs
    · exact hcs s hs
    · exact has s hs
  have hgcr : GoodSegs (cs ++ xb :: tb) := by
    intro s hs
    rcases List.mem_append.mp hs with hs | hs
    · exact hcs s hs
    · exact hrs s hs
  have hcane : ¬ (cs ++ xa :: ta) = [] := fun hc => hcsne (List.append_eq_nil.mp hc).1
  have hcrne : ¬ (cs ++ xb :: tb) = [] := fun hc => hcsne (List.append_eq_nil.mp hc).1
  obtain ⟨ca, ta2, hja, hcaslash⟩ := joinChar_shape (xa :: ta) has (by simp)
  have hnabs : ¬ isAbs (joinChar '/' (xa :: ta)) = true := by
    rw [hja]
    simp [isAbs, hcaslash]
  have hjoincwd : pyJoin (absOf cs) (joinChar '/' (xa :: ta)) =
      absOf cs ++ '/' :: joinChar '/' (xa :: ta) := by
    unfold pyJoin
    rw [if_neg hnabs, if_neg (absOf_not_slash_end cs hcs hcsne)]
  have habsval : pyAbspath (absOf cs) (joinChar '/' (xa :: ta)) = absOf (cs ++ xa :: ta) := by
    unfold pyAbspath
    rw [if_neg hnabs, hjoincwd, ← absOf_append cs (xa :: ta) hcsne (by simp),
      pyNormpath_good (cs ++ xa :: ta) hgca hcane]
  rw [habsval] at hfa
  have haa : get_abs_dirname fs (absOf cs) (joinChar '/' (xa :: ta)) = absOf (cs ++ xa :: ta) := by
    unfold get_abs_dirname
    rw [habsval, if_neg (by simp [hfa])]
  have hbabs : pyAbspath (absOf cs) (absOf (cs ++ xb :: tb)) = absOf (cs ++ xb :: tb) := by
    rw [pyAbspath_abs _ _ (isAbs_absOf _ hcrne), pyNormpath_good _ hgcr hcrne]
  have hbb : get_abs_dirname fs (absOf cs) (absOf (cs ++ xb :: tb)) = absOf (cs ++ xb :: tb) := by
    unfold get_abs_dirname
    rw [hbabs, if_neg (by simp [hfb])]
  have hneq : ¬ absOf (cs ++ xa :: ta) = absOf (cs ++ xb :: tb) := by
    intro hc
    have h2 := congrArg (split '/') hc
    rw [split_absOf _ hgca hcane, split_absOf _ hgcr hcrne] at h2
    have h3 : (cs ++ xa :: ta : List S) = cs ++ xb :: tb := by simpa using h2
    have h4 := List.append_cancel_left h3
    have h5 : xa = xb ∧ ta = tb := by simpa using h4
    exact hxaxb h5.1
  have hloop : prefixLoop ([] :: (cs ++ xb :: tb)) ([] :: (cs ++ xa :: ta)) [] =
      .ok ([] :: cs) := by
    have h := prefixLoop_diverge ([] :: cs) [] xa xb ta tb hxaxb
    simpa using h
  have hrem : removeFirstSlash (replaceAll (joinChar '/' ([] :: cs)) []
      (absOf (cs ++ xb :: tb))) = joinChar '/' (xb :: tb) := by
    rw [show joinChar '/' (([] : S) :: cs) = absOf cs from rfl,
      absOf_append cs (xb :: tb) hcsne (by simp),
      replaceAll_strip (absOf cs) ('/' :: joinChar '/' (xb :: tb))
        (by rw [absOf_cons cs hcsne]; simp) hocc,
      removeFirstSlash_cons]
  constructor
  · unfold build_relative_path
    rw [haa, hbb, if_neg hneq, split_absOf _ hgca hcane, split_absOf _ hgcr hcrne, hloop]
    dsimp only
    rw [if_neg (show ¬ (([] : S) :: cs).length < 2 from by
      rw [List.length_cons]; omega)]
    rw [hrem, split_joinChar '/' (xb :: tb) (by simp) (fun s hs => (hrs s hs).2.1),
      foldl_climb (xb :: tb) [], List.nil_append]
  · have hresF : isAbs (dotsClimb ((xb :: tb : List S)).length ++ joinChar '/' (xa :: ta)) =
        false := by
      rw [List.length_cons, dotsClimb_succ, show str ".." = ['.', '.'] from rfl]
      rfl
    have hjoinb : pyJoin (absOf (cs ++ xb :: tb))
        (dotsClimb ((xb :: tb : List S)).length ++ joinChar '/' (xa :: ta)) =
        absOf (cs ++ xb :: tb) ++ '/' ::
          (dotsClimb ((xb :: tb : List S)).length ++ joinChar '/' (xa :: ta)) := by
      unfold pyJoin
      rw [if_neg (show ¬ _ = true from by rw [hresF]; exact Bool.false_ne_true),
        if_neg (absOf_not_slash_end _ hgcr hcrne)]
    obtain ⟨cb, tb2, hjb, hcbslash⟩ := joinChar_shape (cs ++ xb :: tb) hgcr hcrne
    have hXeq : joinChar '/' (cs ++ xb :: tb) ++ '/' ::
        (dotsClimb ((xb :: tb : List S)).length ++ joinChar '/' (xa :: ta)) =
        cb :: (tb2 ++ '/' :: (dotsClimb ((xb :: tb : List S)).length ++ joinChar '/' (xa :: ta))) := by
      rw [hjb]
      rfl
    have hsplitres : split '/' (dotsClimb ((xb :: tb : List S)).length ++ joinChar '/' (xa :: ta)) =
        List.replicate ((xb :: tb : List S)).length (str "..") ++ (xa :: ta) := by
      rw [split_dotsClimb _ ((xb :: tb : List S)).length,
        split_joinChar '/' (xa :: ta) (by simp) (fun s hs => (has s hs).2.1)]
    have hsplitfull : split '/' ('/' :: (cb :: (tb2 ++ '/' ::
        (dotsClimb ((xb :: tb : List S)).length ++ joinChar '/' (xa :: ta))))) =
        [] :: ((cs ++ xb :: tb) ++ (List.replicate ((xb :: tb : List S)).length (str "..") ++
          (xa :: ta))) := by
      rw [split_cons_sep, ← hXeq,
        split_append_sep '/' (joinChar '/' (cs ++ xb :: tb)) _,
        split_joinChar '/' (cs ++ xb :: tb) hcrne (fun s hs => (hgcr s hs).2.1), hsplitres]
    have hout : (split '/' ('/' :: cb :: (tb2 ++ '/' ::
        (dotsClimb ((xb :: tb : List S)).length ++ joinChar '/' (xa :: ta))))).foldl
        (normStep 1) [] = cs ++ xa :: ta := by
      rw [hsplitfull, List.foldl_cons, normStep_nil, List.foldl_append,
        foldl_normStep_good 1 (cs ++ xb :: tb) hgcr [], List.nil_append,
        foldl_normStep_pops 1 (xa :: ta) (xb :: tb) hrs cs,
        foldl_normStep_good 1 (xa :: ta) has cs]
    unfold resolveAgainst
    rw [hjoinb, absOf_cons _ hcrne, List.cons_append, hXeq,
      pyNormpath_shape cb _ hcbslash (cs ++ xa :: ta) hout, ← absOf_cons _ hcane, habsval]

/-- Claim C5 amended witness: working directory `/u/m`, path `p/q`, root
`/u/m/w`: the relativizer returns `../p/q`, and resolving it against the
root gives back the resolved path `/u/m/p/q`. -/
theorem c5_amended_witness :
    build_relative_path fsEmpty (absOf [str "u", str "m"]) (joinChar '/' [str "p", str "q"])
        (absOf ([str "u", str "m"] ++ [str "w"])) =
        .ok (dotsClimb ([str "w"] : List S).length ++ joinChar '/' [str "p", str "q"]) ∧
      resolveAgainst (dotsClimb ([str "w"] : List S).length ++ joinChar '/' [str "p", str "q"])
        (absOf ([str "u", str "m"] ++ [str "w"])) =
        pyAbspath (absOf [str "u", str "m"]) (joinChar '/' [str "p", str "q"]) :=
  c5_amended fsEmpty [str "u", str "m"] [str "w"] [str "p", str "q"]
    (by decide) (by decide) (by decide) (by decide) (by decide) (by decide)
    (by decide) (by decide) (by decide) (by decide)

/-- Claim C8: in the sweep loop, an OSError carrying errno ENOENT — whether
raised while examining (`getmtime`) or while deleting (`os.remove`) a
candidate — makes the loop continue with the remaining names as if the step
had succeeded, while an OSError from deletion with any other errno aborts
the sweep with that error. -/
theorem c8_enoent_skipped (cutoff : Nat) (name : S) (rest : List S) (fs : SweepFS)
    (hz : (str ".zip").isSuffixOf name = true) :
    (lookupT fs.files name = none →
        sweepNames cutoff (name :: rest) fs = sweepNames cutoff rest fs) ∧
      (∀ t e, lookupT fs.files name = some t → t < cutoff → lookupT fs.locked name = some e →
        (e = ENOENT → sweepNames cutoff (name :: rest) fs = sweepNames cutoff rest fs) ∧
          (¬ e = ENOENT → sweepNames cutoff (name :: rest) fs = .error ⟨e⟩)) := by
  constructor
  · intro h
    simp [sweepNames, hz, tryDelete, getmtime, h, ENOENT]
  · intro t e ht hlt hl
    constructor
    · intro he
      simp [sweepNames, hz, tryDelete, getmtime, ht, hlt, osRemove, hl, he, ENOENT]
    · intro he
      have he2 : ¬ e = 2 := by simpa [ENOENT] using he
      simp [sweepNames, hz, tryDelete, getmtime, ht, hlt, osRemove, hl, he2, ENOENT]

/-- Claim C8 witness: the skip-and-continue and fatal-error behaviour at a
concrete sweep state. -/
theorem c8_enoent_skipped_witness :
    (lookupT c8fs.files (str "a.zip") = none →
        sweepNames 5 [str "a.zip"] c8fs = sweepNames 5 [] c8fs) ∧
      (∀ t e, lookupT c8fs.files (str "a.zip") = some t → t < 5 →
          lookupT c8fs.locked (str "a.zip") = some e →
        (e = ENOENT → sweepNames 5 [str "a.zip"] c8fs = sweepNames 5 [] c8fs) ∧
          (¬ e = ENOENT → sweepNames 5 [str "a.zip"] c8fs = .error ⟨e⟩)) :=
  c8_enoent_skipped 5 (str "a.zip") [] c8fs (by decide)

end HashPy
